import Mathlib

/-!
# Verification of the JudgeD probabilistic Datalog engine

A shallow embedding of the core of the `judged` engine, translated from the
Python source (`judged/__init__.py`, `judged/logic.py`, `judged/worlds.py`,
`datalog/bdd.py`, `judged/primitives.py`), together with proofs of the
behavioural claims of the specification.

Modelling conventions:
* Python's interned classes (`Constant`, `Variable`, `Predicate`, BDD `Node`,
  sentence `Atom`s) give identity semantics to structurally equal keys, so
  Python `is`/`==` on them is modelled by structural equality of inductive
  values.
* Python dicts are modelled by association lists with first-match lookup;
  `d[k] = v` replaces in place when the key is present and appends otherwise,
  matching the insertion-order semantics of Python dicts.
* Raising code is modelled by `Except`-style results or by returning the
  mutated-state/raised-flag pair explicitly.
-/

namespace Judged

/-! ## Association lists (model of Python dict) -/

/-- First-match lookup, the model of `d.get(k)` / `d[k]`. -/
def aget {K V : Type} [DecidableEq K] : List (K × V) → K → Option V
  | [], _ => none
  | (k, v) :: rest, key => if k = key then some v else aget rest key

/-- `d[k] = v`: replace in place if the key is present, else append. -/
def aset {K V : Type} [DecidableEq K] : List (K × V) → K → V → List (K × V)
  | [], key, v => [(key, v)]
  | (k, w) :: rest, key, v =>
    if k = key then (k, v) :: rest else (k, w) :: aset rest key v

/-- `d.pop(k, None)`: drop the entry for the key if present. -/
def aerase {K V : Type} [DecidableEq K] : List (K × V) → K → List (K × V)
  | [], _ => []
  | (k, v) :: rest, key => if k = key then rest else (k, v) :: aerase rest key

/-! ## Terms (judged/__init__.py: Constant, Variable)

Terms are interned by class-specific keys (`(name, kind)` for constants,
`name` for variables), so Python identity equality coincides with structural
equality of this inductive type. The constant's `data` payload is not part of
the interning key and plays no role in any operation modelled here. -/

inductive Term : Type
  /-- `Constant(name, kind)`; `kind = None` is `none`. -/
  | const (name : String) (kind : Option String)
  /-- `Variable(name)`. -/
  | var (name : String)
  deriving DecidableEq, Repr

namespace Term

/-- `Constant.id` / `Variable.id`. -/
def id : Term → String
  | const name kind => "c$" ++ kind.getD "" ++ "$" ++ name
  | var name => "v" ++ name

/-- `is_const`. -/
def is_const : Term → Bool
  | const _ _ => true
  | var _ => false

end Term

/-- Substitution environments: Python dicts from interned terms to terms. -/
abbrev Env : Type := List (Term × Term)

/-- `Term.subst(env)`: a constant stays; a variable is replaced by its
replacement term if one is present and remains otherwise. -/
def Term.subst (env : Env) : Term → Term
  | .const n k => .const n k
  | .var n =>
    match aget env (.var n) with
    | some t => t
    | none => .var n

/-- `Term.chase(env)` follows the substitution chain until a term with no
further replacement is reached. Python recurses unboundedly (and would not
terminate on a cyclic environment); the model uses the number of environment
entries plus 1 as recursion fuel, which suffices for exactly the acyclic
environments `unify` constructs. -/
def chaseFuel : Nat → Env → Term → Term
  | 0, _, t => t
  | _ + 1, _, .const n k => .const n k
  | fuel + 1, env, .var n =>
    match aget env (.var n) with
    | some t => chaseFuel fuel env t
    | none => .var n

def Term.chase (env : Env) (t : Term) : Term :=
  chaseFuel (env.length + 1) env t

/-- One dispatching step of `Term.unify` (`unify`/`unify_var`/`unify_const`):
a variable on the left binds to the right-hand term; a constant on the left
binds a right-hand variable to it; two constants do not unify. Only called on
terms that are already chased and distinct. -/
def Term.unifyStep (a b : Term) (env : Env) : Option Env :=
  match a, b with
  | .var n, t => some (aset env (.var n) t)
  | .const n k, .var m => some (aset env (.var m) (.const n k))
  | .const _ _, .const _ _ => none

/-! ## Predicates and literals -/

/-- `Predicate(name, arity)`, interned by that pair. -/
structure Predicate : Type where
  name : String
  arity : Nat
  deriving DecidableEq, Repr

/-- `Predicate.id`. -/
def Predicate.id (p : Predicate) : String := p.name ++ "/" ++ toString p.arity

/-- `add_size` helper for id and tag creation. -/
def add_size (s : String) : String := toString s.length ++ ":" ++ s

/-- `Literal(pred, terms, polarity)`. -/
structure Literal : Type where
  pred : Predicate
  terms : List Term
  polarity : Bool := true
  deriving DecidableEq, Repr

namespace Literal

/-- `Literal.id`: polarity marker, then the length-prefixed predicate id,
then the length-prefixed term ids. -/
def id (l : Literal) : String :=
  (if l.polarity then "" else "~") ++ add_size l.pred.id
    ++ (l.terms.map (fun t => add_size t.id)).foldl (· ++ ·) ""

/-- `Literal.subst(env)`. -/
def subst (env : Env) (l : Literal) : Literal :=
  if env.isEmpty then l
  else { l with terms := l.terms.map (Term.subst env) }

/-- `Literal.invert()`. -/
def invert (l : Literal) : Literal := { l with polarity := !l.polarity }

/-- `Literal.is_grounded()`. -/
def is_grounded (l : Literal) : Bool := l.terms.all Term.is_const

end Literal

/-! ## Tags (α-equivalence keys)

`Literal.tag` rewrites variables positionally: a constant contributes its id,
a variable contributes the placeholder `v{i}` recorded at its first
occurrence (`i` is the position at which the tagging process first met it).
The tag environment maps variables to placeholder strings. -/

abbrev TagEnv : Type := List (Term × String)

/-- `Term.tag(i, env)` for both term kinds, returning the tag together with
the updated tag environment (Python mutates `env` in place). -/
def Term.tagStep : Term → Nat → TagEnv → String × TagEnv
  | .const n k, _, env => ((Term.const n k).id, env)
  | .var n, i, env =>
    match aget env (.var n) with
    | some s => (s, env)
    | none =>
      let s := "v" ++ toString i
      (s, aset env (.var n) s)

/-- The loop of `Literal.tag`: fold over the terms with their positions,
threading the tag environment. -/
def tagTerms : List Term → Nat → TagEnv → String
  | [], _, _ => ""
  | t :: ts, i, env =>
    let (s, env') := t.tagStep i env
    add_size s ++ tagTerms ts (i + 1) env'

/-- `Literal.tag()`. -/
def Literal.tag (l : Literal) : String :=
  (if l.polarity then "" else "~") ++ add_size l.pred.id ++ tagTerms l.terms 0 []

/-! ## Literal unification (judged/__init__.py lines 304-322) -/

/-- The body of the per-position loop of `Literal.unify`: chase both sides,
skip if equal, otherwise dispatch to the term unification step. -/
def unifyPos (env : Env) (a b : Term) : Option Env :=
  let ta := a.chase env
  let tb := b.chase env
  if ta = tb then some env else ta.unifyStep tb env

/-- `Literal.unify(other)`: fails on predicate mismatch, otherwise folds
`unifyPos` position-wise over the terms (Python indexes positions
`0 .. arity-1`; literals store exactly `arity` terms). -/
def Literal.unify (l r : Literal) : Option Env :=
  if l.pred ≠ r.pred then none
  else (l.terms.zip r.terms).foldlM (fun env (p : Term × Term) => unifyPos env p.1 p.2) []

/-! ## Label fragments and descriptive sentences (judged/worlds.py)

`LabelFragment`s are interned, so structural equality models Python equality.
The `Atom` sentences (`Top`, `Bottom`, `Label`) are interned as well; compound
sentences (`Negation`, `Conjunction`, `Disjunction`) are compared by object
identity in Python, which structural equality refines (the claims proved here
only compare sentences where the two notions agree). -/

inductive LabelFrag : Type
  /-- `LabelConstant(c)`; the stored string is `str(c)`. -/
  | lconst (s : String)
  /-- `LabelFunction(name, terms)`. -/
  | lfunc (name : String) (terms : List Term)
  deriving DecidableEq, Repr

/-- `LabelFragment.tag()`. -/
def LabelFrag.tag : LabelFrag → String
  | .lconst s => add_size s
  | .lfunc name terms =>
    add_size name ++ (terms.map (fun t => add_size t.id)).foldl (· ++ ·) ""

mutual
/-- Sentence AST. Python stores the subsentences of `Conjunction` and
`Disjunction` in a list; the mutual list type `SList` represents it (it is
isomorphic to `List Sentence`). -/
inductive Sentence : Type
  | top
  | bottom
  | label (partitioning part : LabelFrag)
  | negation (sub : Sentence)
  | conjunction (terms : SList)
  | disjunction (terms : SList)
  deriving DecidableEq, Repr

inductive SList : Type
  | nil
  | cons (head : Sentence) (tail : SList)
  deriving DecidableEq, Repr
end

/-- First-occurrence deduplication: the model of collecting values into a
Python `set` and iterating it in insertion order. -/
def dedupFirst {α : Type} [DecidableEq α] : List α → List α
  | [] => []
  | a :: as => a :: dedupFirst (as.filter (· ≠ a))
termination_by l => l.length
decreasing_by
  exact Nat.lt_succ_of_le (List.length_filter_le _ _)

namespace SList

def toList : SList → List Sentence
  | nil => []
  | cons h t => h :: t.toList

def length : SList → Nat
  | nil => 0
  | cons _ t => t.length + 1

/-- The elements different from `x` (model of the comprehension that drops a
given atom in `conjunct`/`disjunct`). -/
def filterNe (x : Sentence) : SList → SList
  | nil => nil
  | cons h t => if h = x then t.filterNe x else cons h (t.filterNe x)

theorem length_filterNe_le (x : Sentence) : ∀ l : SList, (l.filterNe x).length ≤ l.length
  | nil => le_refl _
  | cons h t => by
    have := length_filterNe_le x t
    by_cases hx : h = x
    · simp only [filterNe, if_pos hx, length]
      omega
    · simp only [filterNe, if_neg hx, length]
      omega

/-- First-occurrence deduplication on sentence lists (Python `set`
collection, as in `dedupFirst`). -/
def dedupF : SList → SList
  | nil => nil
  | cons h t => cons h ((t.filterNe h).dedupF)
termination_by l => l.length
decreasing_by
  exact Nat.lt_succ_of_le (length_filterNe_le _ _)

end SList

mutual
/-- `Sentence.labels()`: the set of `(partitioning, part)` pairs appearing in
the sentence. Python returns a `set`; the model returns the first-occurrence
list of the distinct pairs. -/
def Sentence.labels : Sentence → List (LabelFrag × LabelFrag)
  | .top => []
  | .bottom => []
  | .label p q => [(p, q)]
  | .negation s => s.labels
  | .conjunction ts => dedupFirst ts.labelsL
  | .disjunction ts => dedupFirst ts.labelsL

def SList.labelsL : SList → List (LabelFrag × LabelFrag)
  | .nil => []
  | .cons h t => h.labels ++ t.labelsL
end

mutual
/-- `Sentence.evaluate(checker)` (short-circuiting and/or). -/
def Sentence.evaluate (checker : LabelFrag → LabelFrag → Bool) : Sentence → Bool
  | .top => true
  | .bottom => false
  | .label p q => checker p q
  | .negation s => !s.evaluate checker
  | .conjunction ts => ts.allEval checker
  | .disjunction ts => ts.anyEval checker

def SList.allEval (checker : LabelFrag → LabelFrag → Bool) : SList → Bool
  | .nil => true
  | .cons h t => h.evaluate checker && t.allEval checker

def SList.anyEval (checker : LabelFrag → LabelFrag → Bool) : SList → Bool
  | .nil => false
  | .cons h t => h.evaluate checker || t.anyEval checker
end

/-- `worlds.conjunct(*terms)`: drop `Top`, deduplicate, collapse the empty and
singleton cases. -/
def conjunct (terms : SList) : Sentence :=
  match (terms.filterNe Sentence.top).dedupF with
  | .nil => Sentence.top
  | .cons s .nil => s
  | used => Sentence.conjunction used

/-- `worlds.disjunct(*terms)`: dual of `conjunct` with `Bottom`. -/
def disjunct (terms : SList) : Sentence :=
  match (terms.filterNe Sentence.bottom).dedupF with
  | .nil => Sentence.bottom
  | .cons s .nil => s
  | used => Sentence.disjunction used

/-! ## BDD engine (datalog/bdd.py)

BDD nodes are interned by the key `(root, high, low)`, so Python `is` on live
nodes coincides with structural equality of this inductive type. The sinks
`ZERO` and `ONE` carry the pseudo-roots `-1` and `-2` (see `rootIdx`); internal
roots are the natural variable indices handed out by the `variable` registry.
Name map: `_node` is `nodeB`, `_neg` is `negB`, `_restrict` is `restrictB`,
`_ite` is `iteB`, `constant` is `constantB`, `variable` is `variableB`. -/

inductive Bnode : Type
  | zero
  | one
  | node (root : Nat) (high low : Bnode)
  deriving DecidableEq, Repr

/-- The `root` field: sinks carry the negative magic numbers. -/
def rootIdx : Bnode → Int
  | .zero => -1
  | .one => -2
  | .node r _ _ => r

/-- `_node`: smart constructor collapsing redundant tests. -/
def nodeB (root : Nat) (high low : Bnode) : Bnode :=
  if high = low then high else .node root high low

/-- `_neg`. -/
def negB : Bnode → Bnode
  | .zero => .one
  | .one => .zero
  | .node r h l => nodeB r (negB h) (negB l)

/-- Restriction points `{var: ONE}` / `{var: ZERO}`: the BDD-valued dict is
modelled with `true` for `ONE` and `false` for `ZERO` (the only values the
source ever places in a point). -/
abbrev Point : Type := List (Nat × Bool)

/-- `_restrict`. -/
def restrictB : Bnode → Point → Bnode
  | .zero, _ => .zero
  | .one, _ => .one
  | .node r h l, point =>
    match aget point r with
    | some true => restrictB h point
    | some false => restrictB l point
    | none => nodeB r (restrictB h point) (restrictB l point)

/-- Tree size of a node, the termination measure for `_ite`. -/
def bsize : Bnode → Nat
  | .zero => 1
  | .one => 1
  | .node _ h l => 1 + bsize h + bsize l

theorem bsize_pos : ∀ x : Bnode, 0 < bsize x
  | .zero => Nat.one_pos
  | .one => Nat.one_pos
  | .node _ _ _ => by simp [bsize]

theorem bsize_nodeB_le (r : Nat) (h l : Bnode) :
    bsize (nodeB r h l) ≤ 1 + bsize h + bsize l := by
  unfold nodeB
  by_cases he : h = l
  · simp only [if_pos he]
    omega
  · simp [if_neg he, bsize]

theorem bsize_restrictB_le : ∀ (x : Bnode) (pt : Point), bsize (restrictB x pt) ≤ bsize x
  | .zero, _ => le_refl _
  | .one, _ => le_refl _
  | .node r h l, pt => by
    have ih1 := bsize_restrictB_le h pt
    have ih2 := bsize_restrictB_le l pt
    unfold restrictB
    match aget pt r with
    | some true => simpa [bsize] using by omega
    | some false => simpa [bsize] using by omega
    | none =>
      calc bsize (nodeB r (restrictB h pt) (restrictB l pt))
          ≤ 1 + bsize (restrictB h pt) + bsize (restrictB l pt) := bsize_nodeB_le _ _ _
        _ ≤ bsize (Bnode.node r h l) := by simp only [bsize]; omega

theorem bsize_restrictB_lt_of_hit (r : Nat) (h l : Bnode) (pt : Point) (v : Bool)
    (hv : aget pt r = some v) :
    bsize (restrictB (Bnode.node r h l) pt) < bsize (Bnode.node r h l) := by
  have ih1 := bsize_restrictB_le h pt
  have ih2 := bsize_restrictB_le l pt
  unfold restrictB
  rw [hv]
  cases v <;> simp only [bsize] <;> omega

/-- The top roots of a node as an option. -/
def nroot : Bnode → Option Nat
  | .node r _ _ => some r
  | _ => none

/-- Minimum of optional roots. -/
def omin : Option Nat → Option Nat → Option Nat
  | none, b => b
  | some x, none => some x
  | some x, some y => some (min x y)

/-- `min(n.root for n in (f, g, h) if not n.root < 0)`: the minimum top root
over the non-sink arguments. `_ite` only reaches this computation when `f` is
an internal node, so the fallback 0 is never used there. -/
def minRoot (f g h : Bnode) : Nat :=
  (omin (nroot f) (omin (nroot g) (nroot h))).getD 0

theorem minRoot_node_cases (rf : Nat) (fh fl : Bnode) (g h : Bnode) :
    minRoot (Bnode.node rf fh fl) g h = rf
      ∨ nroot g = some (minRoot (Bnode.node rf fh fl) g h)
      ∨ nroot h = some (minRoot (Bnode.node rf fh fl) g h) := by
  unfold minRoot
  cases hg : nroot g with
  | none =>
    cases hh : nroot h with
    | none => left; rfl
    | some y =>
      simp only [nroot, omin, Option.getD_some, Option.some.injEq]
      omega
  | some x =>
    cases hh : nroot h with
    | none =>
      simp only [nroot, omin, Option.getD_some, Option.some.injEq]
      omega
    | some y =>
      simp only [nroot, omin, Option.getD_some, Option.some.injEq]
      omega

theorem minRoot_le_nroot_f (rf : Nat) (fh fl : Bnode) (g h : Bnode) :
    minRoot (Bnode.node rf fh fl) g h ≤ rf := by
  unfold minRoot
  cases hg : nroot g <;> cases hh : nroot h <;>
    simp only [nroot, omin, Option.getD_some] <;> omega

theorem minRoot_le_nroot_g (f g h : Bnode) (rg : Nat) (hg : nroot g = some rg) :
    minRoot f g h ≤ rg := by
  unfold minRoot
  cases hf : nroot f <;> cases hh : nroot h <;>
    rw [hg] <;> simp only [omin, Option.getD_some] <;> omega

theorem minRoot_le_nroot_h (f g h : Bnode) (rh : Nat) (hh : nroot h = some rh) :
    minRoot f g h ≤ rh := by
  unfold minRoot
  cases hf : nroot f <;> cases hg : nroot g <;>
    rw [hh] <;> simp only [omin, Option.getD_some] <;> omega

theorem bsize_restrictB_lt_of_nroot (x : Bnode) (r : Nat) (v : Bool)
    (hx : nroot x = some r) : bsize (restrictB x [(r, v)]) < bsize x := by
  match x, hx with
  | Bnode.node r h l, rfl =>
    exact bsize_restrictB_lt_of_hit r h l [(r, v)] v (by simp [aget])

/-- `_ite`: the If-Then-Else operator on represented nodes, recursing on the
co-factors of the minimum non-sink root. -/
def iteB (f g h : Bnode) : Bnode :=
  if g = Bnode.one ∧ h = Bnode.zero then f
  else if g = Bnode.zero ∧ h = Bnode.one then negB f
  else
    match f with
    | .one => g
    | .zero => h
    | .node rf fh fl =>
      if g = h then g
      else
        let fn := Bnode.node rf fh fl
        let r := minRoot fn g h
        nodeB r
          (iteB (restrictB fn [(r, true)]) (restrictB g [(r, true)]) (restrictB h [(r, true)]))
          (iteB (restrictB fn [(r, false)]) (restrictB g [(r, false)]) (restrictB h [(r, false)]))
termination_by bsize f + bsize g + bsize h
decreasing_by
  all_goals
    rcases minRoot_node_cases rf fh fl g h with hc | hc | hc
    · have h1 : bsize (restrictB (Bnode.node rf fh fl) [(minRoot (Bnode.node rf fh fl) g h, true)])
          < bsize (Bnode.node rf fh fl) ∧
          bsize (restrictB (Bnode.node rf fh fl) [(minRoot (Bnode.node rf fh fl) g h, false)])
          < bsize (Bnode.node rf fh fl) := by
        constructor <;> exact hc ▸ bsize_restrictB_lt_of_nroot _ _ _ (by simp [nroot, hc])
      have h2 := bsize_restrictB_le g [(minRoot (Bnode.node rf fh fl) g h, true)]
      have h3 := bsize_restrictB_le h [(minRoot (Bnode.node rf fh fl) g h, true)]
      have h4 := bsize_restrictB_le g [(minRoot (Bnode.node rf fh fl) g h, false)]
      have h5 := bsize_restrictB_le h [(minRoot (Bnode.node rf fh fl) g h, false)]
      omega
    · have h1 := bsize_restrictB_lt_of_nroot g _ true hc
      have h1' := bsize_restrictB_lt_of_nroot g _ false hc
      have h2 := bsize_restrictB_le (Bnode.node rf fh fl) [(minRoot (Bnode.node rf fh fl) g h, true)]
      have h3 := bsize_restrictB_le h [(minRoot (Bnode.node rf fh fl) g h, true)]
      have h4 := bsize_restrictB_le (Bnode.node rf fh fl) [(minRoot (Bnode.node rf fh fl) g h, false)]
      have h5 := bsize_restrictB_le h [(minRoot (Bnode.node rf fh fl) g h, false)]
      omega
    · have h1 := bsize_restrictB_lt_of_nroot h _ true hc
      have h1' := bsize_restrictB_lt_of_nroot h _ false hc
      have h2 := bsize_restrictB_le (Bnode.node rf fh fl) [(minRoot (Bnode.node rf fh fl) g h, true)]
      have h3 := bsize_restrictB_le g [(minRoot (Bnode.node rf fh fl) g h, true)]
      have h4 := bsize_restrictB_le (Bnode.node rf fh fl) [(minRoot (Bnode.node rf fh fl) g h, false)]
      have h5 := bsize_restrictB_le g [(minRoot (Bnode.node rf fh fl) g h, false)]
      omega

/-- `constant(val)`. -/
def constantB (val : Bool) : Bnode := if val then .one else .zero

/-- `variable(name)` returns `_node(identifier, ONE, ZERO)` for the registry
index of the name; the registry itself is modelled by passing the index. -/
def variableB (identifier : Nat) : Bnode := nodeB identifier .one .zero

/-- `BDD.__and__`: `f & g = ite(f, g, 0)`. -/
def andB (f g : Bnode) : Bnode := iteB f g .zero

/-- `BDD.__or__`: `f | g = ite(f, 1, g)`. -/
def orB (f g : Bnode) : Bnode := iteB f .one g

/-- `BDD.__xor__`: `f ^ g = ite(f, ~g, g)`. -/
def xorB (f g : Bnode) : Bnode := iteB f (negB g) g

/-- `BDD.is_zero()`. -/
def isZero (f : Bnode) : Bool := f = Bnode.zero

/-! ## Clauses (judged/__init__.py: Clause) -/

/-- `Clause(head, body, delayed, sentence)`. -/
structure Clause : Type where
  head : Literal
  body : List Literal := []
  delayed : List Literal := []
  sentence : Sentence := Sentence.top
  deriving DecidableEq, Repr

namespace Clause

/-- `Clause.id`. `repr(sentence)` is modelled by the `Repr`-derived string;
its only use is as part of the storage key. -/
def id (c : Clause) : String :=
  add_size c.head.id
    ++ (c.body.map (fun l => add_size l.id)).foldl (· ++ ·) ""
    ++ "|"
    ++ (c.delayed.map (fun l => add_size l.id)).foldl (· ++ ·) ""
    ++ "%" ++ add_size (toString (repr c.sentence))

/-- `Clause.subst(env)`: substitute in the head, body and delayed literals;
the sentence is kept unchanged. -/
def subst (env : Env) (c : Clause) : Clause :=
  if env.isEmpty then c
  else
    { head := c.head.subst env
      body := c.body.map (Literal.subst env)
      delayed := c.delayed.map (Literal.subst env)
      sentence := c.sentence }

end Clause

/-! ## Renaming (shuffle / rename with the fresh-variable counter)

`make_fresh_var` uses a global counter; the model threads it explicitly. -/

/-- `Term.shuffle(env)`: a variable not yet in the environment is assigned a
fresh variable `_{n}` for the incremented counter value. -/
def Term.shuffle : Term → Env × Nat → Env × Nat
  | .const _ _, st => st
  | .var n, (env, counter) =>
    match aget env (.var n) with
    | some _ => (env, counter)
    | none => (aset env (.var n) (.var ("_" ++ toString (counter + 1))), counter + 1)

/-- `Literal.shuffle(env)`: shuffle every term. -/
def Literal.shuffle (l : Literal) (st : Env × Nat) : Env × Nat :=
  l.terms.foldl (fun st t => t.shuffle st) st

/-- `Clause.rename()`: the shuffle environment is driven by the body and
delayed literals (`Clause.__iter__`), never by the head. Returns the renamed
clause together with the updated fresh-variable counter. -/
def Clause.rename (counter : Nat) (c : Clause) : Clause × Nat :=
  let (env, counter') := (c.body ++ c.delayed).foldl (fun st l => l.shuffle st) ([], counter)
  (if env.isEmpty then c else c.subst env, counter')

/-! ## BDD compilation of sentences (judged/worlds.py)

`bdd.variable` hands out registry indices in first-use order; the registry is
modelled by an ambient injective assignment `vidx` from variable names to
indices. -/

/-- `label_bdd_var(partition, part)`. -/
def labelBddVar (vidx : String → Nat) (partition part : LabelFrag) : Bnode :=
  variableB (vidx (partition.tag ++ "_" ++ part.tag))

mutual
/-- `Sentence.create_bdd()`: Top is ONE, Bottom is ZERO, a label is its BDD
variable, negation is `_neg`, conjunction/disjunction fold `&`/`|` over the
subsentences starting from the constant. -/
def Sentence.create_bdd (vidx : String → Nat) : Sentence → Bnode
  | .top => constantB true
  | .bottom => constantB false
  | .label p q => labelBddVar vidx p q
  | .negation s => negB (s.create_bdd vidx)
  | .conjunction ts => ts.conjBdd vidx (constantB true)
  | .disjunction ts => ts.disjBdd vidx (constantB false)

def SList.conjBdd (vidx : String → Nat) (acc : Bnode) : SList → Bnode
  | .nil => acc
  | .cons h t => t.conjBdd vidx (andB acc (h.create_bdd vidx))

def SList.disjBdd (vidx : String → Nat) (acc : Bnode) : SList → Bnode
  | .nil => acc
  | .cons h t => t.disjBdd vidx (orB acc (h.create_bdd vidx))
end

/-! ## Knowledge base (judged/logic.py: Knowledge)

`db` maps predicates to insertion-ordered maps from clause ids to clauses;
`prim` maps predicates to primitive generators. The generators receive the
literal and the prover instance; the prover handle type is the parameter `P`.
-/

structure Knowledge (P : Type) : Type where
  db : List (Predicate × List (String × Clause)) := []
  prim : List (Predicate × (Literal → P → List Clause)) := []

/-- The built-in equality predicate `=/2` (judged/primitives.py). -/
def EQUALS_PREDICATE : Predicate := ⟨"=", 2⟩

/-- `equals_predicate(literal, prover)`: attempt term unification of the two
arguments, substitute on success, and yield a fact when the two sides came
out equal. -/
def equals_predicate (lit : Literal) : List Clause :=
  match lit.terms with
  | [a, b] =>
    match Term.unifyStep a b [] with
    | some env =>
      let a' := a.subst env
      let b' := b.subst env
      if a' = b' then [{ head := { pred := lit.pred, terms := [a', b'] } }] else []
    | none => if a = b then [{ head := { pred := lit.pred, terms := [a, b] } }] else []
  | _ => []

/-- `Knowledge.__init__` with `register_primitives`: empty db, the equality
primitive registered. -/
def Knowledge.init (P : Type) : Knowledge P :=
  { db := [], prim := [(EQUALS_PREDICATE, fun lit _ => equals_predicate lit)] }

/-- The set of variables of a term list (comprehensions in `is_safe`). -/
def termVars (ts : List Term) : List Term := ts.filter (fun t => !t.is_const)

/-- `Knowledge.is_safe`: all head variables occur in the body, and all
variables of negated literals occur in positive literals. The iteration
`for lit in clause` covers body and delayed literals. -/
def is_safe (c : Clause) : Bool :=
  let lits := c.body ++ c.delayed
  let head_vars := termVars c.head.terms
  let body_vars := (lits.map (fun l => termVars l.terms)).flatten
  let first := head_vars.all (· ∈ body_vars)
  let pos_vars := ((lits.filter (·.polarity)).map (fun l => termVars l.terms)).flatten
  let neg_vars := ((lits.filter (fun l => !l.polarity)).map (fun l => termVars l.terms)).flatten
  let second := neg_vars.all (· ∈ pos_vars)
  first && second

/-- `Knowledge.assert_clause`: raises (second component `some message`)
leaving the db untouched when the clause is unsafe; otherwise stores the
clause under its id in the map of its head predicate. -/
def Knowledge.assert_clause {P : Type} (kb : Knowledge P) (c : Clause) :
    Knowledge P × Option String :=
  if !is_safe c then (kb, some "Asserted clause is unsafe")
  else
    let pred := c.head.pred
    let inner := (aget kb.db pred).getD []
    ({ kb with db := aset kb.db pred (aset inner c.id c) }, none)

/-- `Knowledge.retract_clause`: pop the clause id from the predicate's map;
a predicate entry that is (or becomes) empty is dropped from the db. -/
def Knowledge.retract_clause {P : Type} (kb : Knowledge P) (c : Clause) : Knowledge P :=
  let pred := c.head.pred
  match aget kb.db pred with
  | none => { kb with db := aerase kb.db pred }
  | some inner =>
    if inner.isEmpty then { kb with db := aerase kb.db pred }
    else
      let inner' := aerase inner c.id
      if inner'.isEmpty then { kb with db := aerase kb.db pred }
      else { kb with db := aset kb.db pred inner' }

/-- `Knowledge.add_primitive`: couple the predicate to the generator
(an existing registration for the predicate is overwritten). -/
def Knowledge.add_primitive {P : Type} (kb : Knowledge P) (predicate : Predicate)
    (gen : Literal → P → List Clause) : Knowledge P :=
  { kb with prim := aset kb.prim predicate gen }

/-- `Knowledge.clauses(literal, prover)`: primitive clauses for the literal's
predicate first, then the asserted clauses. -/
def Knowledge.clauses {P : Type} (kb : Knowledge P) (literal : Literal) (prover : P) :
    List Clause :=
  let pred := literal.pred
  (match aget kb.prim pred with
   | some gen => gen literal prover
   | none => [])
  ++ (match aget kb.db pred with
      | some inner => inner.map (·.2)
      | none => [])

/-- `Knowledge.parts(partitioning)`: collect every part labelled with the
partitioning across the sentences of all stored clauses (a Python set,
modelled in first-occurrence order). -/
def Knowledge.parts {P : Type} (kb : Knowledge P) (partitioning : LabelFrag) : List LabelFrag :=
  dedupFirst
    ((kb.db.map (fun e => (e.2.map (fun f =>
        ((f.2.sentence.labels.filter (fun lb => lb.1 = partitioning)).map (·.2)))).flatten)).flatten)

/-! ## Exclusions and falsehood (judged/worlds.py lines 239-293) -/

/-- The inner `excl_subsub` accumulation of `exclusion_matrix`: the part's
variable conjoined with the negations of all other parts of the group. -/
def exclSubsub (vidx : String → Nat) (key : LabelFrag) (idp : LabelFrag)
    (group : List LabelFrag) : Bnode :=
  (group.filter (· ≠ idp)).foldl
    (fun acc idnot => andB acc (negB (labelBddVar vidx key idnot)))
    (labelBddVar vidx key idp)

/-- The `excl_sub` accumulation: the disjunction of `excl_subsub` over the
group's parts (None while no part has been processed). -/
def exclSub (vidx : String → Nat) (key : LabelFrag) (group : List LabelFrag) : Option Bnode :=
  group.foldl
    (fun acc idp =>
      match acc with
      | none => some (exclSubsub vidx key idp group)
      | some e => some (orB e (exclSubsub vidx key idp group)))
    none

/-- `worlds.exclusion_matrix(partitions, kb)`: for each partitioning with
more than one known part, conjoin the at-most-one-part constraint. -/
def exclusion_matrix {P : Type} (partitions : List LabelFrag) (kb : Knowledge P)
    (vidx : String → Nat) : Option Bnode :=
  partitions.foldl
    (fun excl key =>
      let group := kb.parts key
      if 1 < group.length then
        match exclSub vidx key group, excl with
        | some sub, none => some sub
        | some sub, some e => some (andB e sub)
        | none, e => e
      else excl)
    none

/-- `worlds.falsehood(s, kb)`: the sentence's BDD conjoined with the
exclusion matrix over its partitionings is ZERO. -/
def falsehood {P : Type} (s : Sentence) (kb : Knowledge P) (vidx : String → Nat) : Bool :=
  let sbdd := s.create_bdd vidx
  let partitions := dedupFirst (s.labels.map (·.1))
  match exclusion_matrix partitions kb vidx with
  | some excl => isZero (andB sbdd excl)
  | none => isZero sbdd


/-- `LabelFunction.variables` / `LabelConstant.variables` (judged/worlds.py):
the non-constant terms of the fragment. -/
def LabelFrag.variables : LabelFrag → List Term
  | .lconst _ => []
  | .lfunc _ terms => terms.filter (fun t => !t.is_const)

/-- The safety predicate exactly as the specification states it (for
comparison against the code's `is_safe`): (i) every variable in the head
appears in some body literal, (ii) every variable in a negated body literal
appears in some positive body literal, (iii) every variable in the sentence's
labels appears in the head or body. -/
def specSafe (c : Clause) : Bool :=
  let head_vars := termVars c.head.terms
  let body_vars := (c.body.map (fun l => termVars l.terms)).flatten
  let pos_vars := ((c.body.filter (·.polarity)).map (fun l => termVars l.terms)).flatten
  let neg_vars := ((c.body.filter (fun l => !l.polarity)).map (fun l => termVars l.terms)).flatten
  let label_vars := (c.sentence.labels.map (fun lb => lb.1.variables ++ lb.2.variables)).flatten
  head_vars.all (· ∈ body_vars) && neg_vars.all (· ∈ pos_vars)
    && label_vars.all (· ∈ head_vars ++ body_vars)

/-- The stored clause of a predicate under a clause id. -/
def Knowledge.stored {P : Type} (kb : Knowledge P) (p : Predicate) (i : String) :
    Option Clause :=
  (aget kb.db p).bind (fun inner => aget inner i)

/-- Well-formedness of the knowledge base state, maintained by
`assert_clause`/`retract_clause`: predicate keys are unique (they key a
Python dict), every stored per-predicate map is non-empty (empty maps are
dropped by `retract_clause` and never created by `assert_clause`), and the
clause ids within a per-predicate map are unique. -/
def Knowledge.wf {P : Type} (kb : Knowledge P) : Prop :=
  (kb.db.map Prod.fst).Nodup
    ∧ ∀ e ∈ kb.db, e.2 ≠ [] ∧ (e.2.map Prod.fst).Nodup

/-! ## ExactProver.slg_resolve (judged/logic.py lines 668-691) -/

/-- The SLG resolvent of a clause `G` with selected literal `Li` and another
clause `C` in the exact prover: rename `C`, unify `Li` with the renamed head,
splice the renamed body in place of `Li`, conjoin the two sentences, and
reject the resolvent when the combined sentence is a falsehood given the
knowledge base's exclusions. `counter` is the global fresh-variable counter
used by the renaming. -/
def slg_resolve_exact {P : Type} (kb : Knowledge P) (vidx : String → Nat) (counter : Nat)
    (clause : Clause) (selected : Literal) (other : Clause) : Option Clause :=
  if clause.body.isEmpty then none
  else
    let renamed := (other.rename counter).1
    match selected.unify renamed.head with
    | none => none
    | some env =>
      let body := (clause.body.map
        (fun lit => if lit.id = selected.id then renamed.body else [lit])).flatten
      let sentence := conjunct (.cons clause.sentence (.cons other.sentence .nil))
      if falsehood sentence kb vidx then none
      else some (Clause.subst env
        { head := clause.head, body := body, delayed := clause.delayed, sentence := sentence })

/-! ## DeterministicContext (judged/logic.py lines 41-60) -/

/-- The world choices of a `DeterministicContext`: a dict from partitionings
to the selected parts. -/
abbrev Choices : Type := List (LabelFrag × LabelFrag)

/-- `DeterministicContext.check(key, part)`. The source evaluates
`self.choices[key] == part` as a bare expression statement and falls off the
end of the function, so the comparison's result is discarded and the
successful branch returns Python `None` (modelled `Except.ok none`); a
missing partitioning raises a `JudgedError`. -/
def deterministic_check (choices : Choices) (key _part : LabelFrag) :
    Except String (Option Bool) :=
  match aget choices key with
  | some _selected => Except.ok none
  | none => Except.error "no part is selected for the partitioning"

/-- `DeterministicContext.select_world_set(key, part)`. -/
def select_world_set (choices : Choices) (key part : LabelFrag) : Choices :=
  aset choices key part

/-! ## MontecarloContext.ask (judged/logic.py lines 102-138)

The sampling of worlds (`check`/`pick` driven by `random.random()`) and the
prover call of each iteration are modelled by an oracle mapping the iteration
number to the produced answer list and the sampled world (the
`frozenset(self.choices.items())` of that iteration). Probabilities are exact
rationals; the float `error()` is `sqrt` of the mean squared error, so the
break test `error() <= approximate` is modelled on squares:
`sqrt(mse) ≤ τ ↔ 0 ≤ τ ∧ mse ≤ τ²` (the mean square is nonnegative). -/

/-- A sampled world: the choices of one iteration. -/
abbrev MWorld : Type := List (LabelFrag × LabelFrag)

/-- A `collections.Counter`: an insertion-ordered map to counts. -/
abbrev Counter (α : Type) : Type := List (α × Nat)

/-- `counter[x] += 1`. -/
def bump {α : Type} [DecidableEq α] (c : Counter α) (x : α) : Counter α :=
  match aget c x with
  | some n => aset c x (n + 1)
  | none => c ++ [(x, 1)]

/-- `counter[x]` (0 when absent). -/
def countOf {α : Type} [DecidableEq α] (c : Counter α) (x : α) : Nat :=
  (aget c x).getD 0

/-- The loop state of `MontecarloContext.ask`: the iteration count and the
world and answer tallies. -/
structure MCState : Type where
  count : Nat := 0
  worldsC : Counter MWorld := []
  answersC : Counter Clause := []

/-- `exact(w)`: the product of the stored probabilities of the world's
chosen parts. -/
def exactW (prob : LabelFrag → LabelFrag → ℚ) (w : MWorld) : ℚ :=
  w.foldl (fun acc pv => acc * prob pv.1 pv.2) 1

/-- `p(c) = c / count`. -/
def pOf (count : Nat) (c : Nat) : ℚ := (c : ℚ) / (count : ℚ)

/-- The mean squared error of `error()` (before the square root): the sum of
`(exact(w) - p(worlds[w]))²` over the distinct observed worlds, divided by
the number of distinct worlds. -/
def mseOf (prob : LabelFrag → LabelFrag → ℚ) (st : MCState) : ℚ :=
  (st.worldsC.foldl
      (fun acc wc =>
        acc + (exactW prob wc.1 - pOf st.count wc.2) * (exactW prob wc.1 - pOf st.count wc.2))
      0)
    / (st.worldsC.length : ℚ)

/-- `error() <= approximate` for `error() = sqrt(mse)`: equivalent to
`0 ≤ τ ∧ mse ≤ τ·τ`. -/
def errLe (mse τ : ℚ) : Bool := 0 ≤ τ && mse ≤ τ * τ

/-- The break test `approximate is not None and error() <= approximate`. -/
def stopB (τ : Option ℚ) (mse : ℚ) : Bool :=
  match τ with
  | none => false
  | some t => errLe mse t

/-- One iteration of the `while` body: bump the count, tally the answers and
the sampled world of this iteration. -/
def mcIter (oracle : Nat → List Clause × MWorld) (st : MCState) : MCState :=
  let k := st.count + 1
  let (ans, w) := oracle k
  { count := k
    answersC := ans.foldl bump st.answersC
    worldsC := bump st.worldsC w }

/-- The `while self.number == 0 or count < self.number` loop with the break
on the approximation test, run on explicit fuel: `none` means the fuel was
exhausted before the loop exited. -/
def mcRun (number : Nat) (τ : Option ℚ) (oracle : Nat → List Clause × MWorld)
    (prob : LabelFrag → LabelFrag → ℚ) : Nat → MCState → Option MCState
  | 0, _ => none
  | fuel + 1, st =>
    if number = 0 ∨ st.count < number then
      let st' := mcIter oracle st
      if stopB τ (mseOf prob st') then some st'
      else mcRun number τ oracle prob fuel st'
    else some st

/-- The emitted `Result`: each distinct answer with probability
`count / iterations`, and the notes `{iterations, error}` (the error is
recorded as its square `errorSq` to stay within the rationals). -/
structure MCResult : Type where
  answers : List (Clause × ℚ)
  iterations : Nat
  errorSq : ℚ

/-- Build the `Result` from the final loop state. -/
def mcBuild (prob : LabelFrag → LabelFrag → ℚ) (st : MCState) : MCResult :=
  { answers := st.answersC.map (fun ac => (ac.1, pOf st.count ac.2))
    iterations := st.count
    errorSq := mseOf prob st }

/-- `MontecarloContext.ask(query)`: run the loop from the empty tallies with
fuel `number + 1` (which suffices whenever `number > 0`). -/
def mcAsk (number : Nat) (τ : Option ℚ) (oracle : Nat → List Clause × MWorld)
    (prob : LabelFrag → LabelFrag → ℚ) : Option MCResult :=
  (mcRun number τ oracle prob (number + 1) {}).map (mcBuild prob)


/-- The variable renaming induced by a substitution environment whose values
are variables: the image variable name when the environment binds the
variable, the variable's own name otherwise. -/
def sigmaApp (env : Env) (n : String) : String :=
  match aget env (.var n) with
  | some (Term.var m) => m
  | _ => n


/-! ## BDD invariants (claim C8)

`Reduced` demands that no internal node has identical high and low children;
`BoundedB b` demands that every root index is at least `b` and strictly
increases from parent to child, i.e. the diagram is ordered. `ROrd` is the
claim-shaped combination: reachable internal nodes have distinct children and
a root strictly below the roots of their non-sink children (sinks are leaves
of the inductive type by construction and carry the negative `rootIdx`
pseudo-indices). `Built` is the closure of the public BDD operations. -/

def Reduced : Bnode → Prop
  | .zero => True
  | .one => True
  | .node _ h l => h ≠ l ∧ Reduced h ∧ Reduced l

def BoundedB : Nat → Bnode → Prop
  | _, .zero => True
  | _, .one => True
  | b, .node r h l => b ≤ r ∧ BoundedB (r + 1) h ∧ BoundedB (r + 1) l

def childOk (r : Nat) : Bnode → Prop
  | .node r' _ _ => r < r'
  | _ => True

def ROrd : Bnode → Prop
  | .zero => True
  | .one => True
  | .node r h l => h ≠ l ∧ childOk r h ∧ childOk r l ∧ ROrd h ∧ ROrd l

/-- The BDDs produced by the public operations `constant`, `variable`,
`~` (negation), `&`, `|` and `^`. -/
inductive Built : Bnode → Prop
  | const (val : Bool) : Built (constantB val)
  | varb (i : Nat) : Built (variableB i)
  | neg {x : Bnode} : Built x → Built (negB x)
  | and {x y : Bnode} : Built x → Built y → Built (andB x y)
  | or {x y : Bnode} : Built x → Built y → Built (orB x y)
  | xor {x y : Bnode} : Built x → Built y → Built (xorB x y)


/-- The observed count of an answer over the first `k` iterations of the
oracle: the number of occurrences of the answer in the concatenated answer
lists. -/
def occTo (oracle : Nat → List Clause × MWorld) : Nat → Clause → Nat
  | 0, _ => 0
  | k + 1, a => occTo oracle k a + ((oracle (k + 1)).1).count a

/-! # Theorems

First the association-list facts used throughout, then one theorem per
specification claim. -/

theorem aget_aset_self {K V : Type} [DecidableEq K] (l : List (K × V)) (k : K) (v : V) :
    aget (aset l k v) k = some v := by
  induction l with
  | nil => simp [aget, aset]
  | cons p rest ih =>
    obtain ⟨k', w⟩ := p
    by_cases h : k' = k <;> simp [aget, aset, h, ih]

theorem aget_aset_ne {K V : Type} [DecidableEq K] (l : List (K × V)) (k k' : K) (v : V)
    (h : k ≠ k') : aget (aset l k v) k' = aget l k' := by
  induction l with
  | nil => simp [aget, aset, h]
  | cons p rest ih =>
    obtain ⟨k₀, w⟩ := p
    by_cases h0 : k₀ = k
    · subst h0
      simp [aget, aset, h]
    · simp only [aset, if_neg h0, aget]
      by_cases h1 : k₀ = k' <;> simp [h1, ih]

theorem aget_aerase_ne {K V : Type} [DecidableEq K] (l : List (K × V)) (k k' : K)
    (h : k ≠ k') : aget (aerase l k) k' = aget l k' := by
  induction l with
  | nil => simp [aerase]
  | cons p rest ih =>
    obtain ⟨k₀, w⟩ := p
    by_cases h0 : k₀ = k
    · subst h0
      simp [aerase, aget, h, ih]
    · simp only [aerase, if_neg h0, aget]
      by_cases h1 : k₀ = k' <;> simp [h1, ih]

theorem aget_aerase_self {K V : Type} [DecidableEq K] (l : List (K × V)) (k : K)
    (h : (l.map Prod.fst).Nodup) : aget (aerase l k) k = none := by
  induction l with
  | nil => simp [aerase, aget]
  | cons p rest ih =>
    obtain ⟨k₀, w⟩ := p
    simp only [List.map_cons, List.nodup_cons] at h
    by_cases h0 : k₀ = k
    · subst h0
      -- key removed; it does not occur in the tail
      cases hrest : aget rest k₀ with
      | none => simpa [aerase] using hrest
      | some v =>
        exfalso
        apply h.1
        clear ih h
        induction rest with
        | nil => simp [aget] at hrest
        | cons q rest' ih' =>
          obtain ⟨k₁, u⟩ := q
          simp only [aget] at hrest
          by_cases h1 : k₁ = k₀
          · simp [h1]
          · simp only [if_neg h1] at hrest
            simp [ih' hrest]
    · simp [aerase, aget, h0, ih h.2]

theorem aerase_of_aget_none {K V : Type} [DecidableEq K] (l : List (K × V)) (k : K)
    (h : aget l k = none) : aerase l k = l := by
  induction l with
  | nil => rfl
  | cons p rest ih =>
    obtain ⟨k₀, w⟩ := p
    simp only [aget] at h
    by_cases h0 : k₀ = k
    · simp [h0] at h
    · simp only [if_neg h0] at h
      simp [aerase, h0, ih h]


/-! ## Claim C10: identities of `conjunct` and `disjunct` -/

/-- **C10**: the sentence constructors `conjunct` and `disjunct` are
idempotent and satisfy the unit identities: `conjunct() = Top`,
`conjunct(s) = s` for `s ≠ Top`, `conjunct(s, s) = s`, `conjunct(Top, s) = s`,
and dually `disjunct() = Bottom`, `disjunct(s) = s` for `s ≠ Bottom`,
`disjunct(s, s) = s`, `disjunct(Bottom, s) = s`. -/
theorem conjunct_disjunct_identities :
    conjunct .nil = Sentence.top
    ∧ (∀ s : Sentence, s ≠ Sentence.top → conjunct (.cons s .nil) = s)
    ∧ (∀ s : Sentence, conjunct (.cons s (.cons s .nil)) = s)
    ∧ (∀ s : Sentence, conjunct (.cons Sentence.top (.cons s .nil)) = s)
    ∧ disjunct .nil = Sentence.bottom
    ∧ (∀ s : Sentence, s ≠ Sentence.bottom → disjunct (.cons s .nil) = s)
    ∧ (∀ s : Sentence, disjunct (.cons s (.cons s .nil)) = s)
    ∧ (∀ s : Sentence, disjunct (.cons Sentence.bottom (.cons s .nil)) = s) := by
  refine ⟨?_, ?_, ?_, ?_, ?_, ?_, ?_, ?_⟩
  · simp [conjunct, SList.filterNe, SList.dedupF]
  · intro s hs
    simp [conjunct, SList.filterNe, hs, SList.dedupF]
  · intro s
    by_cases hs : s = Sentence.top <;>
      simp [conjunct, SList.filterNe, hs, SList.dedupF]
  · intro s
    by_cases hs : s = Sentence.top <;>
      simp [conjunct, SList.filterNe, hs, SList.dedupF]
  · simp [disjunct, SList.filterNe, SList.dedupF]
  · intro s hs
    simp [disjunct, SList.filterNe, hs, SList.dedupF]
  · intro s
    by_cases hs : s = Sentence.bottom <;>
      simp [disjunct, SList.filterNe, hs, SList.dedupF]
  · intro s
    by_cases hs : s = Sentence.bottom <;>
      simp [disjunct, SList.filterNe, hs, SList.dedupF]

/-- **C10 witness**: the hypothesis-bearing singleton identities applied at
concrete sentences. -/
theorem conjunct_disjunct_identities_witness :
    conjunct (.cons Sentence.bottom .nil) = Sentence.bottom
    ∧ disjunct (.cons Sentence.top .nil) = Sentence.top :=
  ⟨conjunct_disjunct_identities.2.1 Sentence.bottom (by decide),
   conjunct_disjunct_identities.2.2.2.2.2.1 Sentence.top (by decide)⟩

/-! ## Claim C4: DeterministicContext.check -/

/-- **C4** (counter-evidence to the claim, exhibiting the code bug): with the
part `a` selected for the partitioning `x`, `check(x, a)` evaluates the
comparison as a bare expression statement and returns Python `None` instead
of the comparison's value, so it never returns `true`; with no part selected
the call raises as claimed. The claim (and `DeterministicContext`'s purpose
of admitting exactly the chosen world) requires `check(p, v)` to return
`choices[p] == v`; the missing `return` makes every label check falsy. -/
theorem deterministic_check_never_returns_bool :
    deterministic_check [(LabelFrag.lconst "x", LabelFrag.lconst "a")]
        (LabelFrag.lconst "x") (LabelFrag.lconst "a") = Except.ok none
    ∧ deterministic_check [(LabelFrag.lconst "x", LabelFrag.lconst "a")]
        (LabelFrag.lconst "x") (LabelFrag.lconst "a") ≠ Except.ok (some true)
    ∧ deterministic_check (select_world_set [] (LabelFrag.lconst "x") (LabelFrag.lconst "a"))
        (LabelFrag.lconst "x") (LabelFrag.lconst "a") = Except.ok none
    ∧ deterministic_check [] (LabelFrag.lconst "x") (LabelFrag.lconst "a")
        = Except.error "no part is selected for the partitioning" := by
  refine ⟨rfl, ?_, rfl, rfl⟩
  intro h
  simp only [deterministic_check, aget, if_true, reduceIte, Except.ok.injEq] at h
  exact Option.noConfusion h

/-! ## Claim C1: unification soundness -/

/-- **C1** (counter-evidence to the claim, exhibiting the code bug): for
`L = p(Y, X)` and `R = p(X, c)` the unifier returns the triangular
environment `{Y ↦ X, X ↦ c}`; a single application of `subst` maps `L` to
`p(X, c)` and `R` to `p(c, c)`, whose ids differ — contrary to the
specification and to `Literal.unify`'s own docstring, which promise that
applying the environment to both literals yields structurally equal
literals. -/
theorem unify_subst_ids_differ :
    Literal.unify ⟨⟨"p", 2⟩, [.var "Y", .var "X"], true⟩
        ⟨⟨"p", 2⟩, [.var "X", .const "c" none], true⟩
      = some [(.var "Y", .var "X"), (.var "X", .const "c" none)]
    ∧ (Literal.subst [(.var "Y", .var "X"), (.var "X", .const "c" none)]
        ⟨⟨"p", 2⟩, [.var "Y", .var "X"], true⟩).id
      ≠ (Literal.subst [(.var "Y", .var "X"), (.var "X", .const "c" none)]
        ⟨⟨"p", 2⟩, [.var "X", .const "c" none], true⟩).id := by
  constructor
  · rfl
  · decide

/-! ## Additional association-list lemmas -/

theorem aget_mem {K V : Type} [DecidableEq K] (l : List (K × V)) (k : K) (v : V)
    (h : aget l k = some v) : (k, v) ∈ l := by
  induction l with
  | nil => simp [aget] at h
  | cons p rest ih =>
    obtain ⟨k₀, w⟩ := p
    simp only [aget] at h
    by_cases h0 : k₀ = k
    · subst h0
      simp at h
      subst h
      exact List.mem_cons_self _ _
    · rw [if_neg h0] at h
      exact List.mem_cons_of_mem _ (ih h)

theorem aset_of_aget_some {K V : Type} [DecidableEq K] (l : List (K × V)) (k : K) (v : V)
    (h : aget l k = some v) : aset l k v = l := by
  induction l with
  | nil => simp [aget] at h
  | cons p rest ih =>
    obtain ⟨k₀, w⟩ := p
    simp only [aget] at h
    by_cases h0 : k₀ = k
    · subst h0
      simp at h
      simp [aset, h]
    · rw [if_neg h0] at h
      simp [aset, h0, ih h]

theorem aerase_eq_nil_cases {K V : Type} [DecidableEq K] (l : List (K × V)) (k : K)
    (h : aerase l k = []) : l = [] ∨ ∃ v, l = [(k, v)] := by
  cases l with
  | nil => exact Or.inl rfl
  | cons p rest =>
    obtain ⟨k₀, w⟩ := p
    simp only [aerase] at h
    by_cases h0 : k₀ = k
    · subst h0
      simp only [if_pos rfl] at h
      subst h
      exact Or.inr ⟨w, rfl⟩
    · simp [h0] at h

/-! ## Claim C6: primitive registration and `clauses` -/

/-- **C6 counterexample**: registering two generators on the same predicate
does not fuse them — `add_primitive` overwrites, so `clauses` yields only the
output of the second generator (followed by the asserted clauses), not the
concatenation of both outputs. -/
theorem clauses_second_primitive_replaces_first :
    Knowledge.clauses
      (Knowledge.add_primitive
        (Knowledge.add_primitive (Knowledge.init Unit) ⟨"q", 0⟩
          (fun _ _ => [{ head := ⟨⟨"a", 0⟩, [], true⟩ }]))
        ⟨"q", 0⟩ (fun _ _ => [{ head := ⟨⟨"b", 0⟩, [], true⟩ }]))
      ⟨⟨"q", 0⟩, [], true⟩ ()
      = [{ head := ⟨⟨"b", 0⟩, [], true⟩ }]
    ∧ [({ head := ⟨⟨"b", 0⟩, [], true⟩ } : Clause)]
      ≠ [{ head := ⟨⟨"a", 0⟩, [], true⟩ }, { head := ⟨⟨"b", 0⟩, [], true⟩ }] := by
  constructor
  · rfl
  · decide

/-- **C6 amended**: registering a second primitive generator on a predicate
replaces the first; for every literal with that predicate, `kb.clauses`
yields the output of the most recently registered generator (invoked with the
literal and the prover handle), followed by the asserted clauses for the
predicate. -/
theorem clauses_last_primitive_wins {P : Type} (kb : Knowledge P) (p : Predicate)
    (g1 g2 : Literal → P → List Clause) (lit : Literal) (pr : P) (hp : lit.pred = p) :
    Knowledge.clauses (Knowledge.add_primitive (Knowledge.add_primitive kb p g1) p g2) lit pr
      = g2 lit pr
        ++ (match aget kb.db p with
            | some inner => inner.map (·.2)
            | none => []) := by
  subst hp
  unfold Knowledge.clauses Knowledge.add_primitive
  simp [aget_aset_self]

/-- **C6 witness**: the amended statement applied at a concrete knowledge
base, predicate, generator pair and literal. -/
theorem clauses_last_primitive_wins_witness :
    Knowledge.clauses
      (Knowledge.add_primitive
        (Knowledge.add_primitive (Knowledge.init Unit) ⟨"r", 1⟩
          (fun _ _ => []))
        ⟨"r", 1⟩ (fun l _ => [{ head := l }]))
      ⟨⟨"r", 1⟩, [.const "k" none], true⟩ ()
      = [{ head := ⟨⟨"r", 1⟩, [.const "k" none], true⟩ }] := by
  have h := clauses_last_primitive_wins (Knowledge.init Unit) ⟨"r", 1⟩
    (fun _ _ => []) (fun l _ => [{ head := l }])
    ⟨⟨"r", 1⟩, [.const "k" none], true⟩ () rfl
  simpa [Knowledge.init] using h

/-! ## Claim C2: assert_clause and safety -/

/-- **C2 counterexample**: the clause `p(X) :- q(X) [x = f(Y)]` violates
condition (iii) of the specification's safety predicate (the label variable
`Y` occurs in neither head nor body), yet `assert_clause` accepts it without
raising: the code checks only conditions (i) and (ii). -/
theorem assert_clause_accepts_label_variable :
    specSafe
      { head := ⟨⟨"p", 1⟩, [.var "X"], true⟩
        body := [⟨⟨"q", 1⟩, [.var "X"], true⟩]
        sentence := .label (.lconst "x") (.lfunc "f" [.var "Y"]) } = false
    ∧ (Knowledge.assert_clause (Knowledge.init Unit)
        { head := ⟨⟨"p", 1⟩, [.var "X"], true⟩
          body := [⟨⟨"q", 1⟩, [.var "X"], true⟩]
          sentence := .label (.lconst "x") (.lfunc "f" [.var "Y"]) }).2 = none := by
  constructor
  · rfl
  · rfl

/-- **C2 amended**: `assert_clause` raises if and only if the clause violates
the safety conditions the code actually checks — (i) every head variable
occurs in some body or delayed literal and (ii) every variable of a negated
body or delayed literal occurs in some positive one; the label-variable
condition (iii) of the specification is not checked — and when it raises the
stored clauses are unchanged. -/
theorem assert_clause_raises_iff_unsafe {P : Type} (kb : Knowledge P) (c : Clause) :
    ((Knowledge.assert_clause kb c).2.isSome ↔ is_safe c = false)
    ∧ ((Knowledge.assert_clause kb c).2.isSome → (Knowledge.assert_clause kb c).1 = kb) := by
  unfold Knowledge.assert_clause
  by_cases h : is_safe c <;> simp [h]

/-- **C2 witness**: the amended statement applied at the empty knowledge base
and the unsafe clause `p(X).` (head variable without body). -/
theorem assert_clause_raises_iff_unsafe_witness :
    (Knowledge.assert_clause (Knowledge.init Unit)
        { head := ⟨⟨"p", 1⟩, [.var "X"], true⟩ }).2.isSome
    ∧ (Knowledge.assert_clause (Knowledge.init Unit)
        { head := ⟨⟨"p", 1⟩, [.var "X"], true⟩ }).1 = Knowledge.init Unit := by
  have h := assert_clause_raises_iff_unsafe (Knowledge.init Unit)
    { head := ⟨⟨"p", 1⟩, [.var "X"], true⟩ }
  exact ⟨h.1.mpr (by decide), h.2 (h.1.mpr (by decide))⟩

/-! ## Claim C9: retract_clause -/

/-- **C9**: `retract_clause(c)` never raises (it is modelled by a total
function: the source uses `dict.get` and `dict.pop` with defaults only). On a
well-formed knowledge base it removes at most the stored clause whose id is
`c.id` from the map of `c`'s head predicate: every other predicate's entry is
unchanged, every other clause id of the same predicate resolves as before,
`c.id` no longer resolves, and retracting a clause that was never stored
leaves the knowledge base entirely unchanged. -/
theorem retract_clause_removes_at_most_id {P : Type} (kb : Knowledge P) (c : Clause)
    (h : Knowledge.wf kb) :
    (∀ p, p ≠ c.head.pred → aget (kb.retract_clause c).db p = aget kb.db p)
    ∧ (∀ i, i ≠ c.id →
        (kb.retract_clause c).stored c.head.pred i = kb.stored c.head.pred i)
    ∧ (kb.retract_clause c).stored c.head.pred c.id = none
    ∧ (kb.stored c.head.pred c.id = none → kb.retract_clause c = kb) := by
  obtain ⟨hnd, hin⟩ := h
  obtain ⟨db, prim⟩ := kb
  simp only at hnd hin
  unfold Knowledge.retract_clause Knowledge.stored
  cases hdb : aget db c.head.pred with
  | none =>
    have he := aerase_of_aget_none db c.head.pred hdb
    simp only [hdb, he, Option.none_bind]
    exact ⟨fun p hp => trivial, fun i hi => trivial, trivial, fun _ => trivial⟩
  | some inner =>
    have hmem := aget_mem db c.head.pred inner hdb
    have hinner := hin _ hmem
    have hne : inner.isEmpty = false := by
      cases inner with
      | nil => exact absurd rfl hinner.1
      | cons a l => rfl
    simp only [hdb, hne, Bool.false_eq_true, if_false, Option.some_bind]
    by_cases hnil : (aerase inner c.id).isEmpty = true
    · simp only [hnil, if_true]
      have hsingle : inner = [] ∨ ∃ v, inner = [(c.id, v)] :=
        aerase_eq_nil_cases inner c.id (by simpa using hnil)
      obtain ⟨v, hv⟩ := hsingle.resolve_left hinner.1
      subst hv
      refine ⟨fun p hp => aget_aerase_ne db c.head.pred p (fun he => hp he.symm),
        fun i hi => ?_, ?_, ?_⟩
      · rw [aget_aerase_self db c.head.pred hnd]
        simp only [Option.none_bind, aget]
        rw [if_neg (fun he => hi he.symm)]
      · rw [aget_aerase_self db c.head.pred hnd]
        rfl
      · intro hnone
        simp [aget] at hnone
    · rw [Bool.not_eq_true] at hnil
      simp only [hnil, Bool.false_eq_true, if_false]
      refine ⟨fun p hp => aget_aset_ne db c.head.pred p _ (fun he => hp he.symm),
        fun i hi => ?_, ?_, ?_⟩
      · rw [aget_aset_self]
        simp only [Option.some_bind]
        exact aget_aerase_ne inner c.id i (fun he => hi he.symm)
      · rw [aget_aset_self]
        simp only [Option.some_bind]
        exact aget_aerase_self inner c.id hinner.2
      · intro hnone
        rw [aerase_of_aget_none inner c.id hnone, aset_of_aget_some _ _ _ hdb]

/-- **C9 witness**: the theorem applied to the freshly initialised (empty,
well-formed) knowledge base: retracting a clause that was never asserted
leaves it entirely unchanged. -/
theorem retract_clause_removes_at_most_id_witness :
    (Knowledge.init Unit).retract_clause { head := ⟨⟨"g", 0⟩, [], true⟩ }
      = Knowledge.init Unit :=
  (retract_clause_removes_at_most_id (Knowledge.init Unit)
      { head := ⟨⟨"g", 0⟩, [], true⟩ }
      ⟨by simp [Knowledge.init], by simp [Knowledge.init]⟩).2.2.2 rfl

/-! ## Claim C3: exact SLG resolution conjoins sentences and rejects
falsehoods -/

theorem clause_subst_sentence (env : Env) (c : Clause) :
    (c.subst env).sentence = c.sentence := by
  unfold Clause.subst
  split <;> rfl

/-- **C3**: in the `ExactProver`, for every clause `G` with selected literal
`Li` and every clause `C`, `slg_resolve` conjoins the sentences of `G` and
`C` into the resolvent's sentence, and returns `none` whenever that combined
sentence is a falsehood given the knowledge base's mutual-exclusion
constraints (in particular it also returns `none` when `G` has no body or
the unification fails, so the falsehood always forces rejection). -/
theorem slg_resolve_conjoins_and_rejects_falsehood {P : Type} (kb : Knowledge P)
    (vidx : String → Nat) (counter : Nat) (G : Clause) (Li : Literal) (C : Clause) :
    (falsehood (conjunct (.cons G.sentence (.cons C.sentence .nil))) kb vidx = true →
      slg_resolve_exact kb vidx counter G Li C = none)
    ∧ (∀ r, slg_resolve_exact kb vidx counter G Li C = some r →
        r.sentence = conjunct (.cons G.sentence (.cons C.sentence .nil))
        ∧ falsehood (conjunct (.cons G.sentence (.cons C.sentence .nil))) kb vidx = false) := by
  unfold slg_resolve_exact
  by_cases hb : G.body.isEmpty = true
  · rw [if_pos hb]
    exact ⟨fun _ => rfl, fun r hr => by simp at hr⟩
  · rw [if_neg hb]
    cases hu : Li.unify ((Clause.rename counter C).1).head with
    | none =>
      simp only [hu]
      exact ⟨fun _ => trivial, fun r hr => by simp at hr⟩
    | some env =>
      simp only [hu]
      by_cases hf : falsehood (conjunct (.cons G.sentence (.cons C.sentence .nil))) kb vidx = true
      · rw [if_pos hf]
        exact ⟨fun _ => rfl, fun r hr => by simp at hr⟩
      · rw [if_neg hf]
        refine ⟨fun hcontra => absurd hcontra hf, fun r hr => ?_⟩
        obtain rfl : Clause.subst env
            { head := G.head
              body := (G.body.map
                (fun lit => if lit.id = Li.id then ((C.rename counter).1).body else [lit])).flatten
              delayed := G.delayed
              sentence := conjunct (.cons G.sentence (.cons C.sentence .nil)) } = r :=
          Option.some.inj hr
        exact ⟨clause_subst_sentence _ _, by simpa using hf⟩

/-- **C3 witness**: resolving `f :- q [x=1]` against the fact `q [x=2]` in a
knowledge base whose stored clauses give the partitioning `x` the parts
`1` and `2`: the conjoined sentence `x=1 and x=2` is a falsehood under the
exclusion matrix, so the resolvent is rejected. -/
theorem slg_resolve_rejects_falsehood_witness :
    slg_resolve_exact
      (Knowledge.mk (P := Unit)
        [(⟨"f", 0⟩,
          [("i1", { head := ⟨⟨"f", 0⟩, [], true⟩
                    sentence := Sentence.label (.lconst "x") (.lconst "1") }),
           ("i2", { head := ⟨⟨"f", 0⟩, [], true⟩
                    sentence := Sentence.label (.lconst "x") (.lconst "2") })])] [])
      (fun nm => if nm = "1:x_1:1" then 0 else 1) 0
      { head := ⟨⟨"f", 0⟩, [], true⟩
        body := [⟨⟨"q", 0⟩, [], true⟩]
        sentence := Sentence.label (.lconst "x") (.lconst "1") }
      ⟨⟨"q", 0⟩, [], true⟩
      { head := ⟨⟨"q", 0⟩, [], true⟩
        sentence := Sentence.label (.lconst "x") (.lconst "2") } = none := by
  apply (slg_resolve_conjoins_and_rejects_falsehood _ _ _ _ _ _).1
  simp +decide [falsehood, conjunct, SList.filterNe, SList.dedupF, Sentence.labels,
    SList.labelsL, dedupFirst, Sentence.create_bdd, SList.conjBdd, SList.disjBdd, labelBddVar,
    LabelFrag.tag, add_size, Knowledge.parts, exclusion_matrix, exclSub, exclSubsub, variableB,
    andB, orB, negB, iteB, nodeB, restrictB, minRoot, nroot, omin, aget, isZero, constantB]

/-! ## Claim C7: literal tag α-invariance -/

theorem subst_var_of_var_valued (env : Env)
    (hvar : ∀ n t, aget env (.var n) = some t → ∃ m, t = .var m) (n : String) :
    Term.subst env (.var n) = .var (sigmaApp env n) := by
  cases h : aget env (.var n) with
  | none => simp [Term.subst, sigmaApp, h]
  | some t =>
    obtain ⟨m, rfl⟩ := hvar n t h
    simp [Term.subst, sigmaApp, h]

theorem tagTerms_rename (env : Env)
    (hvar : ∀ n t, aget env (.var n) = some t → ∃ m, t = .var m)
    (hinj : Function.Injective (sigmaApp env)) :
    ∀ (ts : List Term) (i : Nat) (tL tR : TagEnv),
      (∀ n, aget tR (.var (sigmaApp env n)) = aget tL (.var n)) →
      tagTerms ts i tL = tagTerms (ts.map (Term.subst env)) i tR := by
  intro ts
  induction ts with
  | nil => intro i tL tR _; rfl
  | cons t rest ih =>
    intro i tL tR hInv
    cases t with
    | const nm kd =>
      simp only [List.map_cons, Term.subst, tagTerms, Term.tagStep]
      exact congrArg _ (ih (i + 1) tL tR hInv)
    | var n =>
      rw [List.map_cons, subst_var_of_var_valued env hvar n]
      simp only [tagTerms, Term.tagStep]
      rw [hInv n]
      cases hL : aget tL (Term.var n) with
      | some s =>
        simp only
        exact congrArg _ (ih (i + 1) tL tR hInv)
      | none =>
        simp only
        refine congrArg _ (ih (i + 1) _ _ ?_)
        intro u
        by_cases hu : u = n
        · subst hu
          rw [aget_aset_self, aget_aset_self]
        · have hs : sigmaApp env u ≠ sigmaApp env n := fun he => hu (hinj he)
          rw [aget_aset_ne tR _ _ _ (fun he => hs (Term.var.inj he).symm),
            aget_aset_ne tL _ _ _ (fun he => hu (Term.var.inj he).symm)]
          exact hInv u

/-- **C7**: literal tag α-invariance. For every literal `L` and every
substitution `σ` that maps variables to variables such that the induced
renaming is injective (constants are left unchanged by `subst` by
construction), the tag of `L` equals the tag of `L.subst(σ)`. -/
theorem literal_tag_alpha_invariant (env : Env)
    (hvar : ∀ n t, aget env (.var n) = some t → ∃ m, t = .var m)
    (hinj : Function.Injective (sigmaApp env)) (L : Literal) :
    L.tag = (L.subst env).tag := by
  unfold Literal.subst
  by_cases he : env.isEmpty
  · rw [if_pos he]
  · rw [if_neg he]
    unfold Literal.tag
    simp only
    exact congrArg _ (tagTerms_rename env hvar hinj L.terms 0 [] [] (fun n => rfl))

/-- **C7 witness**: the tag of `p(X, Y, X, c)` is unchanged under the
injective variable swap `{X ↦ Y, Y ↦ X}`. -/
theorem literal_tag_alpha_invariant_witness :
    (⟨⟨"p", 4⟩, [.var "X", .var "Y", .var "X", .const "c" none], true⟩ : Literal).tag
      = (Literal.subst [(.var "X", .var "Y"), (.var "Y", .var "X")]
          ⟨⟨"p", 4⟩, [.var "X", .var "Y", .var "X", .const "c" none], true⟩).tag := by
  apply literal_tag_alpha_invariant
  · intro n t h
    simp only [aget] at h
    split_ifs at h with h1 h2
    · exact ⟨"Y", (Option.some.inj h).symm⟩
    · exact ⟨"X", (Option.some.inj h).symm⟩
  · have hfun : sigmaApp [(.var "X", .var "Y"), (.var "Y", .var "X")]
        = fun n => if n = "X" then "Y" else if n = "Y" then "X" else n := by
      funext n
      simp only [sigmaApp, aget]
      by_cases h1 : n = "X"
      · simp [h1]
      · by_cases h2 : n = "Y" <;>
          simp [h1, h2, Term.var.injEq, eq_comm]
    rw [hfun]
    intro a b hab
    simp only at hab
    split_ifs at hab <;> simp_all

/-! ## Claim C8: the public BDD operations produce reduced ordered BDDs -/

theorem boundedB_mono : ∀ (x : Bnode) (b b' : Nat), b' ≤ b → BoundedB b x → BoundedB b' x
  | .zero, _, _, _, _ => trivial
  | .one, _, _, _, _ => trivial
  | .node r h l, b, b', hle, hb => by
    obtain ⟨hbr, hh, hl⟩ := hb
    exact ⟨le_trans hle hbr, hh, hl⟩

theorem bounded_nroot (x : Bnode) (b rx : Nat) (hb : BoundedB b x)
    (hx : nroot x = some rx) : b ≤ rx := by
  cases x with
  | zero => simp [nroot] at hx
  | one => simp [nroot] at hx
  | node r h l =>
    obtain rfl : r = rx := by simpa [nroot] using hx
    exact hb.1

theorem reduced_nodeB (r : Nat) (h l : Bnode) (hh : Reduced h) (hl : Reduced l) :
    Reduced (nodeB r h l) := by
  by_cases he : h = l
  · rw [nodeB, if_pos he]
    exact hh
  · rw [nodeB, if_neg he]
    exact ⟨he, hh, hl⟩

theorem bounded_nodeB (b r : Nat) (h l : Bnode) (hbr : b ≤ r)
    (hh : BoundedB (r + 1) h) (hl : BoundedB (r + 1) l) : BoundedB b (nodeB r h l) := by
  by_cases he : h = l
  · rw [nodeB, if_pos he]
    exact boundedB_mono _ _ _ (by omega) hh
  · rw [nodeB, if_neg he]
    exact ⟨hbr, hh, hl⟩

theorem negB_reduced : ∀ x : Bnode, Reduced x → Reduced (negB x)
  | .zero, _ => trivial
  | .one, _ => trivial
  | .node r h l, hr => by
    obtain ⟨hne, hh, hl⟩ := hr
    exact reduced_nodeB r _ _ (negB_reduced h hh) (negB_reduced l hl)

theorem negB_bounded : ∀ (x : Bnode) (b : Nat), BoundedB b x → BoundedB b (negB x)
  | .zero, _, _ => trivial
  | .one, _, _ => trivial
  | .node r h l, b, hb => by
    obtain ⟨hbr, hh, hl⟩ := hb
    exact bounded_nodeB b r _ _ hbr (negB_bounded h (r + 1) hh) (negB_bounded l (r + 1) hl)

theorem aget_point_none (pt : Point) (r : Nat) (hk : ∀ p ∈ pt, p.1 ≠ r) :
    aget pt r = none := by
  induction pt with
  | nil => rfl
  | cons p rest ih =>
    obtain ⟨k, v⟩ := p
    simp only [aget]
    rw [if_neg (hk (k, v) (List.mem_cons_self _ _))]
    exact ih (fun q hq => hk q (List.mem_cons_of_mem _ hq))

theorem restrictB_reduced : ∀ (x : Bnode) (pt : Point), Reduced x → Reduced (restrictB x pt)
  | .zero, _, _ => trivial
  | .one, _, _ => trivial
  | .node r h l, pt, hr => by
    obtain ⟨hne, hh, hl⟩ := hr
    simp only [restrictB]
    cases aget pt r with
    | none => exact reduced_nodeB r _ _ (restrictB_reduced h pt hh) (restrictB_reduced l pt hl)
    | some v =>
      cases v with
      | true => exact restrictB_reduced h pt hh
      | false => exact restrictB_reduced l pt hl

theorem restrictB_bounded : ∀ (x : Bnode) (pt : Point) (b : Nat), BoundedB b x →
    (∀ p ∈ pt, p.1 < b) → BoundedB b (restrictB x pt)
  | .zero, _, _, _, _ => trivial
  | .one, _, _, _, _ => trivial
  | .node r h l, pt, b, hb, hk => by
    obtain ⟨hbr, hh, hl⟩ := hb
    have hnone : aget pt r = none :=
      aget_point_none pt r (fun p hp => by have := hk p hp; omega)
    simp only [restrictB, hnone]
    have hk' : ∀ p ∈ pt, p.1 < r + 1 := fun p hp => by have := hk p hp; omega
    exact bounded_nodeB b r _ _ hbr
      (restrictB_bounded h pt (r + 1) hh hk')
      (restrictB_bounded l pt (r + 1) hl hk')

theorem restrictB_at_root (x : Bnode) (b r : Nat) (v : Bool) (hb : BoundedB b x)
    (hroot : ∀ rx, nroot x = some rx → r ≤ rx) :
    BoundedB (r + 1) (restrictB x [(r, v)]) := by
  cases x with
  | zero => trivial
  | one => trivial
  | node rx h l =>
    obtain ⟨hbr, hh, hl⟩ := hb
    have hrx : r ≤ rx := hroot rx rfl
    have hk : ∀ p ∈ ([(r, v)] : Point), p.1 < rx + 1 := by
      intro p hp
      simp only [List.mem_singleton] at hp
      subst hp
      omega
    by_cases hxr : rx = r
    · subst hxr
      have hhit : aget [(rx, v)] rx = some v := by simp [aget]
      simp only [restrictB, hhit]
      cases v with
      | true => exact restrictB_bounded h _ _ hh hk
      | false => exact restrictB_bounded l _ _ hl hk
    · have hmiss : aget [(r, v)] rx = none := by
        simp only [aget]
        rw [if_neg (fun he => hxr he.symm)]
      simp only [restrictB, hmiss]
      exact bounded_nodeB (r + 1) rx _ _ (by omega)
        (restrictB_bounded h _ _ hh hk)
        (restrictB_bounded l _ _ hl hk)

theorem iteB_reduced_bounded (f g h : Bnode) :
    ∀ b : Nat, Reduced f → Reduced g → Reduced h →
      BoundedB b f → BoundedB b g → BoundedB b h →
      Reduced (iteB f g h) ∧ BoundedB b (iteB f g h) := by
  induction f, g, h using iteB.induct with
  | case1 f g h hc =>
    intro b hfr hgr hhr hfb hgb hhb
    rw [iteB.eq_def, if_pos hc]
    exact ⟨hfr, hfb⟩
  | case2 f g h hc1 hc2 =>
    intro b hfr hgr hhr hfb hgb hhb
    rw [iteB.eq_def, if_neg hc1, if_pos hc2]
    exact ⟨negB_reduced f hfr, negB_bounded f b hfb⟩
  | case3 g h hc1 hc2 =>
    intro b hfr hgr hhr hfb hgb hhb
    rw [iteB.eq_def, if_neg hc1, if_neg hc2]
    exact ⟨hgr, hgb⟩
  | case4 g h hc1 hc2 =>
    intro b hfr hgr hhr hfb hgb hhb
    rw [iteB.eq_def, if_neg hc1, if_neg hc2]
    exact ⟨hhr, hhb⟩
  | case5 h rf fh fl hc1 hc2 =>
    intro b hfr hgr hhr hfb hgb hhb
    rw [iteB.eq_def, if_neg hc1, if_neg hc2]
    simp only [eq_self_iff_true, if_true]
    exact ⟨hgr, hgb⟩
  | case6 g h hc1 hc2 rf fh fl hne fn r ih1 ih0 =>
    intro b hfr hgr hhr hfb hgb hhb
    rw [iteB.eq_def, if_neg hc1, if_neg hc2]
    simp only [hne, if_false, reduceIte]
    have hrf : ∀ rx, nroot (Bnode.node rf fh fl) = some rx →
        minRoot (Bnode.node rf fh fl) g h ≤ rx := by
      intro rx hx
      have he : rf = rx := by simpa [nroot] using hx
      subst he
      exact minRoot_le_nroot_f rf fh fl g h
    have hrg := minRoot_le_nroot_g (Bnode.node rf fh fl) g h
    have hrh := minRoot_le_nroot_h (Bnode.node rf fh fl) g h
    have hbr : b ≤ minRoot (Bnode.node rf fh fl) g h := by
      rcases minRoot_node_cases rf fh fl g h with hc | hc | hc
      · rw [hc]
        exact hfb.1
      · exact bounded_nroot g b _ hgb hc
      · exact bounded_nroot h b _ hhb hc
    have h1 := ih1 (minRoot (Bnode.node rf fh fl) g h + 1)
      (restrictB_reduced _ _ hfr) (restrictB_reduced _ _ hgr) (restrictB_reduced _ _ hhr)
      (restrictB_at_root _ b _ true hfb hrf)
      (restrictB_at_root _ b _ true hgb hrg)
      (restrictB_at_root _ b _ true hhb hrh)
    have h0 := ih0 (minRoot (Bnode.node rf fh fl) g h + 1)
      (restrictB_reduced _ _ hfr) (restrictB_reduced _ _ hgr) (restrictB_reduced _ _ hhr)
      (restrictB_at_root _ b _ false hfb hrf)
      (restrictB_at_root _ b _ false hgb hrg)
      (restrictB_at_root _ b _ false hhb hrh)
    exact ⟨reduced_nodeB _ _ _ h1.1 h0.1,
      bounded_nodeB b _ _ _ hbr h1.2 h0.2⟩

theorem built_reduced_bounded {x : Bnode} (hb : Built x) :
    Reduced x ∧ BoundedB 0 x := by
  induction hb with
  | const val =>
    cases val <;> exact ⟨trivial, trivial⟩
  | varb i =>
    constructor
    · exact reduced_nodeB i _ _ trivial trivial
    · exact bounded_nodeB 0 i _ _ (Nat.zero_le i) trivial trivial
  | neg hx ih =>
    exact ⟨negB_reduced _ ih.1, negB_bounded _ 0 ih.2⟩
  | and hx hy ihx ihy =>
    exact iteB_reduced_bounded _ _ _ 0 ihx.1 ihy.1 trivial ihx.2 ihy.2 trivial
  | or hx hy ihx ihy =>
    exact iteB_reduced_bounded _ _ _ 0 ihx.1 trivial ihy.1 ihx.2 trivial ihy.2
  | xor hx hy ihx ihy =>
    exact iteB_reduced_bounded _ _ _ 0 ihx.1 (negB_reduced _ ihy.1) ihy.1
      ihx.2 (negB_bounded _ 0 ihy.2) ihy.2

theorem rord_of_reduced_bounded : ∀ (x : Bnode) (b : Nat),
    Reduced x → BoundedB b x → ROrd x
  | .zero, _, _, _ => trivial
  | .one, _, _, _ => trivial
  | .node r h l, b, hr, hb => by
    obtain ⟨hne, hh, hl⟩ := hr
    obtain ⟨hbr, hbh, hbl⟩ := hb
    refine ⟨hne, ?_, ?_, rord_of_reduced_bounded h (r + 1) hh hbh,
      rord_of_reduced_bounded l (r + 1) hl hbl⟩
    · cases h with
      | zero => trivial
      | one => trivial
      | node rh _ _ => exact Nat.lt_of_succ_le hbh.1
    · cases l with
      | zero => trivial
      | one => trivial
      | node rl _ _ => exact Nat.lt_of_succ_le hbl.1

/-- **C8**: every BDD produced by the public operations `constant`,
`variable`, negation, conjunction (`&`), disjunction (`|`) and xor (`^`) is
reduced and ordered: every reachable internal node has a high child distinct
from its low child and a root index strictly smaller than the root index of
each non-sink child. The sinks are leaves by construction of the node type
and carry the negative pseudo-indices (`rootIdx ZERO = -1`,
`rootIdx ONE = -2`). -/
theorem bdd_ops_reduced_ordered (x : Bnode) (hb : Built x) :
    ROrd x ∧ rootIdx Bnode.zero < 0 ∧ rootIdx Bnode.one < 0 :=
  ⟨rord_of_reduced_bounded x 0 (built_reduced_bounded hb).1 (built_reduced_bounded hb).2,
    by decide, by decide⟩

/-- **C8 witness**: the invariant instantiated at the conjunction of two
distinct BDD variables. -/
theorem bdd_ops_reduced_ordered_witness :
    ROrd (andB (variableB 0) (variableB 1)) :=
  (bdd_ops_reduced_ordered (andB (variableB 0) (variableB 1))
    (Built.and (Built.varb 0) (Built.varb 1))).1

/-! ## Claim C5: MontecarloContext.ask -/

theorem aget_append {K V : Type} [DecidableEq K] (l1 l2 : List (K × V)) (k : K) :
    aget (l1 ++ l2) k = match aget l1 k with
      | some v => some v
      | none => aget l2 k := by
  induction l1 with
  | nil => rfl
  | cons p rest ih =>
    obtain ⟨k₀, w⟩ := p
    simp only [List.cons_append, aget]
    by_cases h0 : k₀ = k <;> simp [h0, ih]

theorem aget_none_not_mem_keys {K V : Type} [DecidableEq K] (l : List (K × V)) (k : K)
    (h : aget l k = none) : k ∉ l.map Prod.fst := by
  induction l with
  | nil => simp
  | cons p rest ih =>
    obtain ⟨k₀, w⟩ := p
    simp only [aget] at h
    by_cases h0 : k₀ = k
    · simp [h0] at h
    · rw [if_neg h0] at h
      simp only [List.map_cons, List.mem_cons]
      rintro (rfl | hk)
      · exact h0 rfl
      · exact ih h hk

theorem aset_keys_of_mem {K V : Type} [DecidableEq K] (l : List (K × V)) (k : K) (v w : V)
    (h : aget l k = some w) : (aset l k v).map Prod.fst = l.map Prod.fst := by
  induction l with
  | nil => simp [aget] at h
  | cons p rest ih =>
    obtain ⟨k₀, u⟩ := p
    simp only [aget] at h
    by_cases h0 : k₀ = k
    · simp [aset, h0]
    · rw [if_neg h0] at h
      simp [aset, h0, ih h]

theorem bump_count {α : Type} [DecidableEq α] (c : Counter α) (x y : α) :
    countOf (bump c x) y = countOf c y + (if y = x then 1 else 0) := by
  unfold bump
  cases hx : aget c x with
  | some n =>
    by_cases hyx : y = x
    · subst hyx
      simp [countOf, aget_aset_self, hx]
    · simp [countOf, aget_aset_ne c x y _ (fun he => hyx he.symm), hyx]
  | none =>
    by_cases hyx : y = x
    · subst hyx
      simp [countOf, aget_append, hx, aget]
    · rw [countOf, aget_append]
      cases hy : aget c y with
      | some v => simp [countOf, hy, hyx]
      | none =>
        simp only [aget]
        rw [if_neg (fun he => hyx he.symm)]
        simp [countOf, hy, hyx]

theorem foldl_bump_count {α : Type} [DecidableEq α] :
    ∀ (l : List α) (c : Counter α) (y : α),
      countOf (l.foldl bump c) y = countOf c y + l.count y
  | [], c, y => by simp
  | a :: l, c, y => by
    simp only [List.foldl_cons, List.count_cons]
    rw [foldl_bump_count l (bump c a) y, bump_count]
    by_cases h : y = a
    · subst h
      simp
      omega
    · simp only [beq_iff_eq]
      rw [if_neg h, if_neg (fun he => h he.symm)]
      omega

theorem bump_keys_nodup {α : Type} [DecidableEq α] (c : Counter α) (x : α)
    (h : (c.map Prod.fst).Nodup) : ((bump c x).map Prod.fst).Nodup := by
  unfold bump
  cases hx : aget c x with
  | some n => rw [aset_keys_of_mem c x _ n hx]; exact h
  | none =>
    rw [List.map_append]
    simp only [List.map_cons, List.map_nil]
    rw [List.nodup_append]
    exact ⟨h, List.nodup_singleton x, by
      intro a ha hb
      simp only [List.mem_singleton] at hb
      exact aget_none_not_mem_keys c x hx (hb ▸ ha)⟩

theorem foldl_bump_keys_nodup {α : Type} [DecidableEq α] :
    ∀ (l : List α) (c : Counter α), (c.map Prod.fst).Nodup →
      ((l.foldl bump c).map Prod.fst).Nodup
  | [], _, h => h
  | a :: l, c, h => foldl_bump_keys_nodup l (bump c a) (bump_keys_nodup c a h)

theorem mcIter_count (oracle : Nat → List Clause × MWorld) (st : MCState) :
    (mcIter oracle st).count = st.count + 1 := rfl

theorem mcIter_answersC (oracle : Nat → List Clause × MWorld) (st : MCState) :
    (mcIter oracle st).answersC = ((oracle (st.count + 1)).1).foldl bump st.answersC := rfl

theorem mcRun_exit (number : Nat) (τ : Option ℚ) (oracle : Nat → List Clause × MWorld)
    (prob : LabelFrag → LabelFrag → ℚ) :
    ∀ (fuel : Nat) (st st' : MCState),
      mcRun number τ oracle prob fuel st = some st' →
      (number ≠ 0 ∧ number ≤ st'.count) ∨ stopB τ (mseOf prob st') = true := by
  intro fuel
  induction fuel with
  | zero =>
    intro st st' h
    simp [mcRun] at h
  | succ f ih =>
    intro st st' h
    simp only [mcRun] at h
    by_cases hc : number = 0 ∨ st.count < number
    · rw [if_pos hc] at h
      by_cases hs : stopB τ (mseOf prob (mcIter oracle st)) = true
      · rw [if_pos hs] at h
        obtain rfl := Option.some.inj h
        exact Or.inr hs
      · rw [if_neg hs] at h
        exact ih _ _ h
    · rw [if_neg hc] at h
      obtain rfl := Option.some.inj h
      push_neg at hc
      exact Or.inl ⟨hc.1, by omega⟩

theorem mcRun_count_le (number : Nat) (τ : Option ℚ) (oracle : Nat → List Clause × MWorld)
    (prob : LabelFrag → LabelFrag → ℚ) (hn : 0 < number) :
    ∀ (fuel : Nat) (st st' : MCState),
      mcRun number τ oracle prob fuel st = some st' → st.count ≤ number →
      st'.count ≤ number := by
  intro fuel
  induction fuel with
  | zero =>
    intro st st' h _
    simp [mcRun] at h
  | succ f ih =>
    intro st st' h hle
    simp only [mcRun] at h
    by_cases hc : number = 0 ∨ st.count < number
    · rw [if_pos hc] at h
      have hlt : st.count < number := hc.resolve_left (by omega)
      by_cases hs : stopB τ (mseOf prob (mcIter oracle st)) = true
      · rw [if_pos hs] at h
        obtain rfl := Option.some.inj h
        rw [mcIter_count]
        omega
      · rw [if_neg hs] at h
        exact ih _ _ h (by rw [mcIter_count]; omega)
    · rw [if_neg hc] at h
      obtain rfl := Option.some.inj h
      exact hle

theorem mcRun_inv (number : Nat) (τ : Option ℚ) (oracle : Nat → List Clause × MWorld)
    (prob : LabelFrag → LabelFrag → ℚ) :
    ∀ (fuel : Nat) (st st' : MCState),
      mcRun number τ oracle prob fuel st = some st' →
      (∀ a, countOf st.answersC a = occTo oracle st.count a) →
      ((st.answersC.map Prod.fst).Nodup) →
      (∀ a, countOf st'.answersC a = occTo oracle st'.count a)
        ∧ (st'.answersC.map Prod.fst).Nodup := by
  intro fuel
  induction fuel with
  | zero =>
    intro st st' h _ _
    simp [mcRun] at h
  | succ f ih =>
    intro st st' h hcnt hnd
    have hstep : ∀ a, countOf (mcIter oracle st).answersC a
        = occTo oracle (mcIter oracle st).count a := by
      intro a
      rw [mcIter_answersC, mcIter_count, foldl_bump_count, hcnt a]
      rfl
    have hstepnd : ((mcIter oracle st).answersC.map Prod.fst).Nodup := by
      rw [mcIter_answersC]
      exact foldl_bump_keys_nodup _ _ hnd
    simp only [mcRun] at h
    by_cases hc : number = 0 ∨ st.count < number
    · rw [if_pos hc] at h
      by_cases hs : stopB τ (mseOf prob (mcIter oracle st)) = true
      · rw [if_pos hs] at h
        obtain rfl := Option.some.inj h
        exact ⟨hstep, hstepnd⟩
      · rw [if_neg hs] at h
        exact ih _ _ h hstep hstepnd
    · rw [if_neg hc] at h
      obtain rfl := Option.some.inj h
      exact ⟨hcnt, hnd⟩

theorem mcRun_sufficient (number : Nat) (τ : Option ℚ) (oracle : Nat → List Clause × MWorld)
    (prob : LabelFrag → LabelFrag → ℚ) (hn : 0 < number) :
    ∀ (fuel : Nat) (st : MCState), number - st.count + 1 ≤ fuel →
      ∃ st', mcRun number τ oracle prob fuel st = some st' := by
  intro fuel
  induction fuel with
  | zero =>
    intro st hf
    omega
  | succ f ih =>
    intro st hf
    simp only [mcRun]
    by_cases hc : number = 0 ∨ st.count < number
    · rw [if_pos hc]
      have hlt : st.count < number := hc.resolve_left (by omega)
      by_cases hs : stopB τ (mseOf prob (mcIter oracle st)) = true
      · rw [if_pos hs]
        exact ⟨_, rfl⟩
      · rw [if_neg hs]
        exact ih (mcIter oracle st) (by rw [mcIter_count]; omega)
    · rw [if_neg hc]
      exact ⟨st, rfl⟩

/-- **C5 amended**: `MontecarloContext.ask` runs at most `N` iterations when
`N > 0`; when `N = 0` the loop can only terminate through the tolerance
break; it stops before reaching the bound exactly when an approximate
tolerance `τ` is *set* (not `None` — the source compares against `None`, so
`τ = 0` also enables the break, contrary to the claim's `τ > 0`) and the
root-mean-square error between observed and exact world probabilities is at
most `τ`; it emits each distinct answer once, with probability equal to its
observed count divided by the number of iterations, and the notes carry the
iteration count and the error. -/
theorem montecarlo_ask_amended (number : Nat) (τ : Option ℚ)
    (oracle : Nat → List Clause × MWorld) (prob : LabelFrag → LabelFrag → ℚ) :
    (0 < number → ∃ st : MCState,
      mcRun number τ oracle prob (number + 1) {} = some st
      ∧ mcAsk number τ oracle prob = some (mcBuild prob st)
      ∧ st.count ≤ number
      ∧ (st.count < number → ∃ t, τ = some t ∧ errLe (mseOf prob st) t = true)
      ∧ (mcBuild prob st).iterations = st.count
      ∧ (mcBuild prob st).errorSq = mseOf prob st
      ∧ (mcBuild prob st).answers
          = st.answersC.map (fun ac => (ac.1, pOf st.count ac.2))
      ∧ (∀ a, countOf st.answersC a = occTo oracle st.count a)
      ∧ (st.answersC.map Prod.fst).Nodup)
    ∧ (∀ (fuel : Nat) (st st' : MCState),
        mcRun number τ oracle prob fuel st = some st' →
        (number ≠ 0 ∧ number ≤ st'.count)
          ∨ (∃ t, τ = some t ∧ errLe (mseOf prob st') t = true)) := by
  constructor
  · intro hn
    obtain ⟨st, hrun⟩ := mcRun_sufficient number τ oracle prob hn (number + 1) {} (by simp)
    have hinv := mcRun_inv number τ oracle prob (number + 1) {} st hrun
      (fun a => rfl) List.nodup_nil
    refine ⟨st, hrun, ?_, ?_, ?_, rfl, rfl, rfl, hinv.1, hinv.2⟩
    · rw [mcAsk, hrun]
      rfl
    · exact mcRun_count_le number τ oracle prob hn (number + 1) {} st hrun (Nat.zero_le _)
    · intro hlt
      rcases mcRun_exit number τ oracle prob (number + 1) {} st hrun with hex | hst
      · omega
      · unfold stopB at hst
        cases ht : τ with
        | none => rw [ht] at hst; simp at hst
        | some t =>
          rw [ht] at hst
          exact ⟨t, rfl, hst⟩
  · intro fuel st st' h
    rcases mcRun_exit number τ oracle prob fuel st st' h with hex | hst
    · exact Or.inl hex
    · unfold stopB at hst
      cases ht : τ with
      | none => rw [ht] at hst; simp at hst
      | some t =>
        rw [ht] at hst
        exact Or.inr ⟨t, rfl, hst⟩

/-- **C5 witness**: the amended statement applied at `N = 1` with no
tolerance set and a silent oracle. -/
theorem montecarlo_ask_amended_witness :
    ∃ st : MCState, mcRun 1 none (fun _ => ([], [])) (fun _ _ => 1) 2 {} = some st
      ∧ st.count ≤ 1 := by
  obtain ⟨st, h1, _, h3, _⟩ :=
    (montecarlo_ask_amended 1 none (fun _ => ([], [])) (fun _ _ => 1)).1 (by decide)
  exact ⟨st, h1, h3⟩

/-- **C5 counterexample**: with the bound `N = 5` and the *zero* tolerance
`τ = 0` (which the claim says cannot trigger an early stop, demanding
`τ > 0`), a deterministic query whose single world has exact probability 1
stops after the first iteration: the observed and exact probabilities agree,
the error is 0 ≤ τ, and the loop breaks with `iterations = 1 < 5`. -/
theorem montecarlo_stops_early_with_zero_tolerance :
    (mcAsk 5 (some 0) (fun _ => ([{ head := ⟨⟨"a", 0⟩, [], true⟩ }], []))
        (fun _ _ => 1)).map MCResult.iterations = some 1
    ∧ ¬ ((0 : ℚ) > 0) := by
  constructor
  · norm_num [mcAsk, mcRun, mcIter, mcBuild, mseOf, stopB, errLe, pOf, exactW, bump,
      countOf, aget]
  · simp

end Judged
